import Mathlib

/-!
# opts_parse.cpp: a shallow embedding

The translation unit declares a typed command-line option schema (`decl_opts`), resolves raw
argument strings against it (`index`), converts their values (`parse_opt_impl`) and stores them in
a map that the `getter` operators read back.

Conventions of the embedding:

* a `std::string_view` / `T_string` is a `List Char`;
* `size_t` is 64 bits wide, unsigned arithmetic is written with an explicit `% 2 ^ 64`;
* writes to `std::cout` are collected as a list of lines;
* undefined behaviour (out-of-bounds `std::array` access, a view longer than its string) is `none`;
* the content of an uninitialised local is an explicit argument (`Indeterminate`);
* the value type `double` is a type parameter `D`, and the numeric scan of `num_get` for `double`
  is a parameter `num_get_double`; the `int` and `bool` scans are written out, for a 32-bit
  `int`;
* `parse_opt<T>` names the template `parse_opt_impl<T>` with an explicit argument, so every
  option is converted by the primary template; the two non-template overloads of
  `parse_opt_impl` are embedded as the functions they are, but nothing in `parse` calls them.
-/

namespace OptsParse

/-! ## Strings and `size_t` -/

/-- The type `std::string_view`, as the list of the characters it views. -/
abbrev string_view := List Char

/-- The type `T_string<chars...>`: a compile-time string, the pack `chars...`. -/
abbrev T_string := List Char

/-- Number of values of `size_t`. -/
def SIZE_MOD : Nat := 2 ^ 64

/-- The constant `std::string_view::npos`, that is `size_t(-1)`. -/
def npos : Nat := SIZE_MOD - 1

/-- A string that `argv` can hold: no embedded NUL, and a length that fits `size_t`. -/
def c_string (s : List Char) : Prop := '\x00' ∉ s ∧ s.length < npos

instance (s : List Char) : Decidable (c_string s) := by
  unfold c_string; exact inferInstance

/-- The call `s.find(c)`: position of the first `c`, or `npos`. -/
def find (s : string_view) (c : Char) : Nat :=
  if c ∈ s then s.indexOf c else npos

/-- The call `s.substr(pos, count)` for `pos <= s.size()`. -/
def substr (s : string_view) (pos count : Nat) : string_view :=
  (s.drop pos).take (min count (s.length - pos))

/-- The constructor `std::string_view{p}` from a `const char*` pointing `off` characters into the
NUL-terminated string `s`: everything up to the terminator. -/
def string_view_at (s : List Char) (off : Nat) : string_view :=
  (s.drop off).takeWhile (fun c => c != '\x00')

/-! ## Options and the schema -/

/-- The value types `T` an option is declared with. Each is converted by the primary template of
`parse_opt_impl`, so `T` must have a stream extraction: `std::string_view` has none, and a
`decl_opts` with such an option does not compile. -/
inductive value_t where
  | int
  | double
  | bool
  deriving DecidableEq, Repr

/-- The type `option<T, T_string<brief...>, T_string<full...>>`. -/
structure option where
  value_t : value_t
  brief_name_t : T_string
  full_name_t : T_string
  deriving DecidableEq, Repr

/-- The type `decl_opts<TsOptions...>`, given by its parameter pack in declaration order. -/
structure decl_opts where
  TsOptions : List option
  deriving DecidableEq, Repr

/-- The expression `decl_opts{}`. -/
def decl_opts.empty : decl_opts := ⟨[]⟩

/-- The member `add<T>(brief, full)`: a new `decl_opts` with one more option at the end. -/
def decl_opts.add (self : decl_opts) (T : OptsParse.value_t) (brief full : T_string) : decl_opts :=
  ⟨self.TsOptions ++ [⟨T, brief, full⟩]⟩

/-- The constant `sizeof...(TsOptions)`. -/
def decl_opts.size (self : decl_opts) : Nat := self.TsOptions.length

/-- The fold expression of `index_impl`, unrolled left to right: `Is` is the position of the
option under the cursor and `idx` the variable being assigned. -/
def index_fold (opt : string_view) : List option → Nat → Nat → Nat
  | [], _, idx => idx
  | o :: rest, Is, idx =>
      index_fold opt rest (Is + 1)
        (if opt = o.brief_name_t ∨ opt = o.full_name_t then Is else idx)

/-- The member `index_impl(sequence_t{}, opt)`. -/
def decl_opts.index_impl (self : decl_opts) (opt : string_view) : Nat :=
  index_fold opt self.TsOptions 0 self.size

/-- The member `index(opt)`. -/
def decl_opts.index (self : decl_opts) (opt : string_view) : Nat :=
  self.index_impl (substr opt 0 (find opt '='))

/-! ## Output and formatted input -/

/-- What `std::cout` has received: the lines written, oldest first. -/
abbrev ostream := List (List Char)

/-- The member `print_bad_opt(bad_opt)`: the line it writes. -/
def print_bad_opt (bad_opt : string_view) : ostream :=
  ["command line option ".toList ++ bad_opt ++ " not recognized".toList]

/-- The member `print_bad_value(opt)`: the line it writes. -/
def print_bad_value (opt : string_view) : ostream :=
  ["command line option ".toList ++ opt ++ " provided invalid value".toList]

/-- The function `isspace` of the classic locale: space, `\t`, `\n`, `\v`, `\f`, `\r`. -/
def isspace (c : Char) : Bool :=
  c = ' ' || (9 ≤ c.toNat && c.toNat ≤ 13)

/-- The function `isdigit`. -/
def isdigit (c : Char) : Bool :=
  48 ≤ c.toNat && c.toNat ≤ 57

/-- The constant `INT_MAX` of a 32-bit `int`. -/
def INT_MAX : Int := 2 ^ 31 - 1

/-- The constant `INT_MIN` of a 32-bit `int`. -/
def INT_MIN : Int := -(2 ^ 31)

/-- The value of a run of decimal digits, accumulated left to right. -/
def digits_value (ds : List Char) : Nat :=
  ds.foldl (fun acc c => 10 * acc + (c.toNat - 48)) 0

/-- The scan `num_get::get` runs for `int` with `basefield == dec`, on input that starts with a
non-space character: an optional sign and the longest run of digits are consumed. Returns the
value stored and whether `failbit` is raised: no digit stores 0 and fails, a value outside `int`
stores the nearest bound and fails. -/
def num_get_int (s : List Char) : Int × Bool :=
  let neg : Bool := s.head? = some '-'
  let body : List Char := if s.head? = some '-' ∨ s.head? = some '+' then s.tail else s
  let ds : List Char := body.takeWhile isdigit
  if ds = [] then (0, true)
  else
    let v : Int := if neg then -(digits_value ds : Int) else (digits_value ds : Int)
    if v < INT_MIN then (INT_MIN, true)
    else if INT_MAX < v then (INT_MAX, true)
    else (v, false)

/-- The scan `num_get::get` runs for `bool` without `boolalpha`, on input that starts with a
non-space character: the text is read as an integer; 0 stores `false`, 1 stores `true`, any other
value stores `true` and fails, and no digit stores `false` and fails. -/
def num_get_bool (s : List Char) : Bool × Bool :=
  let neg : Bool := s.head? = some '-'
  let body : List Char := if s.head? = some '-' ∨ s.head? = some '+' then s.tail else s
  let ds : List Char := body.takeWhile isdigit
  if ds = [] then (false, true)
  else
    let v : Int := if neg then -(digits_value ds : Int) else (digits_value ds : Int)
    if v = 0 then (false, false)
    else if v = 1 then (true, false)
    else (true, true)

/-- The statement `ss >> value` on a fresh `std::istringstream` over `s`, followed by the test
`!ss`. The sentry skips leading white space; when nothing is left it raises `failbit` and the
extraction is not attempted, so `value` keeps the content it had. Otherwise `num_get` decides. -/
def extract {T : Type} (num_get : List Char → T × Bool) (value : T) (s : List Char) : T × Bool :=
  let rest : List Char := s.dropWhile isspace
  if rest = [] then (value, true) else num_get rest

/-! ## Conversion of one raw option -/

/-- The index `rhs_start = opt.find('=') + 1`, computed in `size_t`. -/
def rhs_start (opt : string_view) : Nat :=
  (find opt '=' + 1) % SIZE_MOD

/-- The primary template `parse_opt_impl<T>(opt, select_type<T>)`: `value` is the content of the
uninitialised local of that name. Returns the value and what was printed. -/
def parse_opt_impl {T : Type} (num_get : List Char → T × Bool) (value : T) (opt : string_view) :
    T × ostream :=
  let rhs : string_view := string_view_at opt (rhs_start opt)
  let r : T × Bool := extract num_get value rhs
  (r.1, if r.2 then print_bad_value opt else [])

/-- The overload `parse_opt_impl(opt, select_type<bool>)`. It is not a template, so the call
`parse_opt_impl<T>(...)` in `parse_opt` never selects it. -/
def parse_opt_impl_bool (_opt : string_view) : Bool :=
  true

/-- The type `std::any`, restricted to the value types an option can have. -/
inductive any (D : Type) where
  | int (v : Int)
  | double (v : D)
  | bool (v : Bool)
  deriving DecidableEq, Repr

/-- The type held by a `std::any`. -/
def any.type {D : Type} : any D → OptsParse.value_t
  | .int _ => .int
  | .double _ => .double
  | .bool _ => .bool

/-- Indeterminate contents of the local `T value;` of one `parse_opt_impl<T>` call. -/
structure Indeterminate (D : Type) where
  int_value : Int
  double_value : D
  bool_value : Bool

/-- The member `parse_opt<T>(opt)` wrapped as in the lambdas of `make_parse_arr_impl`: the call
`parse_opt_impl<T>(opt, select_type<T>{})` has an explicit template argument, so for every `T`
it is the primary template that runs, with the stream extraction of `T`; the value is boxed in
a `std::any`. -/
def parse_opt {D : Type} (num_get_double : List Char → D × Bool) (T : OptsParse.value_t)
    (u : Indeterminate D) (opt : string_view) : any D × ostream :=
  match T with
  | .int =>
      let r := parse_opt_impl num_get_int u.int_value opt
      (any.int r.1, r.2)
  | .double =>
      let r := parse_opt_impl num_get_double u.double_value opt
      (any.double r.1, r.2)
  | .bool =>
      let r := parse_opt_impl num_get_bool u.bool_value opt
      (any.bool r.1, r.2)

/-- The type `parse_fn_t`, with the effects of a call made explicit. -/
abbrev parse_fn_t (D : Type) := Indeterminate D → string_view → any D × ostream

/-- The member `make_parse_arr()`: one lambda per element of `TsOptions...`, in pack order. -/
def decl_opts.make_parse_arr {D : Type} (num_get_double : List Char → D × Bool)
    (self : decl_opts) : List (parse_fn_t D) :=
  self.TsOptions.map (fun o => parse_opt num_get_double o.value_t)

/-- The member `parse(raw_opt)`: `parse_arr[index(raw_opt)]` is read unchecked, so an index past
the array is undefined behaviour (`none`). -/
def decl_opts.parse_raw_opt {D : Type} (num_get_double : List Char → D × Bool)
    (self : decl_opts) (u : Indeterminate D) (raw_opt : string_view) : Option (any D × ostream) :=
  match (self.make_parse_arr num_get_double)[self.index raw_opt]? with
  | none => none
  | some parse => some (parse u raw_opt)

/-! ## The result map -/

/-- The type `opts_map_t`, as its entries (keys are unique). -/
abbrev opts_map_t (D : Type) := List (string_view × any D)

/-- The assignment `res[key] = a`. -/
def opts_map_t.assign {D : Type} (res : opts_map_t D) (key : string_view) (a : any D) :
    opts_map_t D :=
  (key, a) :: res.filter (fun e => e.1 != key)

/-- The call `res.at(key)`; `none` stands for the `std::out_of_range` it throws. -/
def opts_map_t.at {D : Type} (res : opts_map_t D) (key : string_view) : Option (any D) :=
  (res.find? (fun e => e.1 == key)).map (fun e => e.2)

/-- The keys of the map. -/
def opts_map_t.keys {D : Type} (res : opts_map_t D) : List string_view :=
  res.map (fun e => e.1)

/-- The class `parsed_opts<Opts...>`. -/
structure parsed_opts (D : Type) where
  res : opts_map_t D

/-- The loop of `parse(argc, argv)` from iteration `i` on, over the inputs not yet consumed.
A raw option without `=` makes `lhs` a view of `npos` characters, which is undefined. -/
def parse_loop {D : Type} (num_get_double : List Char → D × Bool) (self : decl_opts)
    (stack : Nat → Indeterminate D) :
    List string_view → Nat → opts_map_t D → ostream → Option (opts_map_t D × ostream)
  | [], _, res, out => some (res, out)
  | raw_opt :: input, i, res, out =>
      if find raw_opt '=' = npos then none
      else
        let lhs : string_view := raw_opt.take (find raw_opt '=')
        match self.parse_raw_opt num_get_double (stack i) raw_opt with
        | none => none
        | some (a, printed) =>
            parse_loop num_get_double self stack input (i + 1) (res.assign lhs a) (out ++ printed)

/-- The member `parse(argc, argv)`, with `argv` the list of its `argc` strings: the inputs are
`argv[1]` onwards. `stack i` is what iteration `i` finds in the uninitialised local. With
`argc == 0` the length `argc - 1` wraps and the copy runs off the array (`none`). -/
def decl_opts.parse {D : Type} (num_get_double : List Char → D × Bool) (self : decl_opts)
    (stack : Nat → Indeterminate D) (argv : List string_view) :
    Option (parsed_opts D × ostream) :=
  match argv with
  | [] => none
  | _ :: input =>
      (parse_loop num_get_double self stack input 0 [] []).map (fun r => (⟨r.1⟩, r.2))

/-! ## Typed lookup -/

/-- What a `getter::operator[]` can throw. -/
inductive get_error where
  | out_of_range
  | bad_any_cast
  deriving DecidableEq, Repr

/-- The call `std::any_cast<T>(a)`. -/
def any_cast {D : Type} (T : OptsParse.value_t) (a : any D) : Except get_error (any D) :=
  if a.type = T then .ok a else .error .bad_any_cast

/-- The operator `getter<Derived, Opt>::operator[](brief_opt_t)`. -/
def getter_brief {D : Type} (Opt : option) (self : parsed_opts D) : Except get_error (any D) :=
  match self.res.at Opt.brief_name_t with
  | none => .error .out_of_range
  | some a => any_cast Opt.value_t a

/-- The operator `getter<Derived, Opt>::operator[](full_opt_t)`. -/
def getter_full {D : Type} (Opt : option) (self : parsed_opts D) : Except get_error (any D) :=
  match self.res.at Opt.full_name_t with
  | none => .error .out_of_range
  | some a => any_cast Opt.value_t a

/-! ## Auxiliary definitions for the statements -/

/-- The test of the fold expression: `opt` equals the brief or the full name of `o`. -/
def option.named (o : option) (opt : string_view) : Prop :=
  opt = o.brief_name_t ∨ opt = o.full_name_t

instance (o : option) (opt : string_view) : Decidable (o.named opt) := by
  unfold option.named; exact inferInstance

/-- A schema in which two options share the brief name `-a`. -/
def shared_brief : decl_opts :=
  (decl_opts.empty.add .int "-a".toList "-x".toList).add .int "-a".toList "-y".toList

/-- The schema built in `main`: `int` option `-f`/`-first`, `double` option `-s`/`-second`. -/
def main_opts : decl_opts :=
  (decl_opts.empty.add .int "-f".toList "-first".toList).add .double "-s".toList "-second".toList

/-- The name part of a raw option: the text before its first `=`. -/
def name_part (raw_opt : string_view) : string_view :=
  raw_opt.takeWhile (fun c => c != '=')

/-- A schema with one option of each of `int`, `double` and `bool`. -/
def typed_opts : decl_opts :=
  ((decl_opts.empty.add .int "-f".toList "-first".toList).add
    .double "-s".toList "-second".toList).add .bool "-v".toList "-verbose".toList

/-- A schema in which an `int` option and a later `double` option share the brief name `-f`. -/
def shared_typed : decl_opts :=
  (decl_opts.empty.add .int "-f".toList "-first".toList).add
    .double "-f".toList "-t".toList

/-- A stand-in for the `double` scan in closed examples, none of which depends on what a
`double` converts to. -/
def no_double : List Char → Unit × Bool :=
  fun _ => ((), true)

/-- A stack whose uninitialised `int` locals all hold `junk`. -/
def stack_of (junk : Int) : Nat → Indeterminate Unit :=
  fun _ => ⟨junk, (), false⟩

/-- A non-empty run of decimal digits. -/
def decimal (ds : List Char) : Prop :=
  ds ≠ [] ∧ ∀ c ∈ ds, isdigit c = true

instance (ds : List Char) : Decidable (decimal ds) := by
  unfold decimal; exact inferInstance

/-- The number a run of decimal digits denotes in positional notation. -/
def decimal_value (ds : List Char) : Nat :=
  Nat.ofDigits 10 ((ds.map (fun c => c.toNat - 48)).reverse)

/-- An optional sign: nothing, `+` or `-`. -/
def optional_sign (s : List Char) : Prop :=
  s = [] ∨ s = ['+'] ∨ s = ['-']

instance (s : List Char) : Decidable (optional_sign s) := by
  unfold optional_sign; exact inferInstance

/-- The integer denoted by the sign `s` followed by the digits `ds`. -/
def signed_value (s ds : List Char) : Int :=
  if s = ['-'] then -(decimal_value ds : Int) else (decimal_value ds : Int)

/-- The text `v`, once leading white space and one optional sign are passed, does not go on with
a digit: it holds no numeral for `int` extraction to read. -/
def lacks_numeral (v : List Char) : Prop :=
  ∀ c, (if (v.dropWhile isspace).head? = some '-' ∨ (v.dropWhile isspace).head? = some '+'
          then (v.dropWhile isspace).tail else v.dropWhile isspace).head? = some c →
    isdigit c = false

/-- No two options of the schema share an identifier: the brief and full names of one differ
from the brief and full names of any other. -/
def distinct_identifiers (S : decl_opts) : Prop :=
  S.TsOptions.Pairwise (fun o p =>
    o.brief_name_t ≠ p.brief_name_t ∧ o.brief_name_t ≠ p.full_name_t ∧
    o.full_name_t ≠ p.brief_name_t ∧ o.full_name_t ≠ p.full_name_t)

instance (S : decl_opts) : Decidable (distinct_identifiers S) := by
  unfold distinct_identifiers; exact inferInstance

/-- The schema obtained from `decl_opts{}` by the chained `add` calls `calls`, each given as the
type and the two names of the call. -/
def chained_add (calls : List (OptsParse.value_t × T_string × T_string)) : decl_opts :=
  calls.foldl (fun S c => S.add c.1 c.2.1 c.2.2) decl_opts.empty

/-! # Properties -/

/-! ## Name resolution -/

theorem index_fold_snoc (opt : string_view) (l : List option) (o : option) (i idx : Nat) :
    index_fold opt (l ++ [o]) i idx
      = if o.named opt then i + l.length else index_fold opt l i idx := by
  induction l generalizing i idx with
  | nil => simp [index_fold, option.named]
  | cons p rest ih =>
      show index_fold opt (p :: (rest ++ [o])) i idx = _
      rw [index_fold, ih, index_fold, List.length_cons]
      by_cases h : o.named opt
      · simp only [h, if_true]; omega
      · simp only [h, if_false]

/-- Where the fold lands: either no option is named `opt` and `idx` is untouched, or it is the
position of the last option named `opt`. -/
theorem index_fold_spec (opt : string_view) (l : List option) (idx : Nat) :
    (index_fold opt l 0 idx = idx ∧ ∀ o ∈ l, ¬ o.named opt) ∨
    (index_fold opt l 0 idx < l.length ∧
      (∃ o, l[index_fold opt l 0 idx]? = some o ∧ o.named opt) ∧
      ∀ j o, index_fold opt l 0 idx < j → l[j]? = some o → ¬ o.named opt) := by
  induction l using List.reverseRecOn with
  | nil => left; simp [index_fold]
  | append_singleton l o ih =>
      rw [index_fold_snoc]
      by_cases h : o.named opt
      · right
        simp only [h, if_true, Nat.zero_add, List.length_append, List.length_singleton]
        refine ⟨by omega, ⟨o, by simp, h⟩, ?_⟩
        intro j p hj hp
        have hlt : j < (l ++ [o]).length := by
          by_contra hc
          rw [List.getElem?_eq_none (by omega)] at hp
          exact Option.noConfusion hp
        simp only [List.length_append, List.length_singleton] at hlt
        omega
      · simp only [h, if_false]
        rcases ih with ⟨h1, h2⟩ | ⟨h1, ⟨p, hp, hn⟩, h3⟩
        · left
          refine ⟨h1, ?_⟩
          intro q hq
          rcases List.mem_append.mp hq with hq | hq
          · exact h2 q hq
          · rw [List.mem_singleton.mp hq]; exact h
        · right
          refine ⟨by simp only [List.length_append, List.length_singleton]; omega,
            ⟨p, by rw [List.getElem?_append_left h1]; exact hp, hn⟩, ?_⟩
          intro j q hj hq
          by_cases hjl : j < l.length
          · rw [List.getElem?_append_left hjl] at hq
            exact h3 j q hj hq
          · have hlt : j < (l ++ [o]).length := by
              by_contra hc
              rw [List.getElem?_eq_none (by omega)] at hq
              exact Option.noConfusion hq
            simp only [List.length_append, List.length_singleton] at hlt
            have hje : j = l.length := by omega
            subst hje
            simp at hq
            rw [← hq]; exact h

theorem find_of_not_mem (s : string_view) (c : Char) (h : c ∉ s) : find s c = npos := by
  simp [find, h]

theorem find_append_cons (n v : List Char) (c : Char) (h : c ∉ n) :
    find (n ++ c :: v) c = n.length := by
  have hm : c ∈ n ++ c :: v := by simp
  rw [find, if_pos hm, List.indexOf_append_of_not_mem h, List.indexOf_cons_self]
  rfl

theorem find_lt_length (s : string_view) (c : Char) (h : c ∈ s) : find s c < s.length := by
  rw [find, if_pos h]; exact List.indexOf_lt_length.mpr h

/-- Without `=` the whole string is the name part. -/
theorem substr_find_of_not_mem (s : string_view) (h : '=' ∉ s) (hlen : s.length < npos) :
    substr s 0 (find s '=') = s := by
  rw [find_of_not_mem s _ h, substr]
  simp only [List.drop_zero, Nat.sub_zero]
  rw [List.take_of_length_le]
  omega

/-- With `=` the name part is what precedes the first one. -/
theorem substr_find_append (n v : List Char) (h : '=' ∉ n) :
    substr (n ++ '=' :: v) 0 (find (n ++ '=' :: v) '=') = n := by
  rw [find_append_cons n v _ h, substr]
  simp only [List.drop_zero, Nat.sub_zero, List.length_append, List.length_cons]
  rw [Nat.min_eq_left (by omega)]
  simp

theorem index_of_not_mem (S : decl_opts) (s : string_view) (h : '=' ∉ s) (hlen : s.length < npos) :
    S.index s = S.index_impl s := by
  rw [decl_opts.index, substr_find_of_not_mem s h hlen]

theorem index_append (S : decl_opts) (n v : List Char) (h : '=' ∉ n) :
    S.index (n ++ '=' :: v) = S.index_impl n := by
  rw [decl_opts.index, substr_find_append n v h]

/-- The position `index_impl` returns: the size when no option is named `s`, else the position
of the last option named `s`. -/
theorem index_impl_spec (S : decl_opts) (s : string_view) :
    (S.index_impl s = S.size ∧ ∀ o ∈ S.TsOptions, ¬ o.named s) ∨
    (S.index_impl s < S.size ∧
      (∃ o, S.TsOptions[S.index_impl s]? = some o ∧ o.named s) ∧
      ∀ j o, S.index_impl s < j → S.TsOptions[j]? = some o → ¬ o.named s) :=
  index_fold_spec s S.TsOptions S.size

/-- C3. Soundness and completeness of `index` with exact matching: for a name part `s` (a string
without `=`), `index(s)` is at most the schema size, equals the size exactly when no declared
option has brief or full name equal to `s`, and otherwise is the position of an option whose
brief or full name equals `s`. -/
theorem C3_index_sound_complete (S : decl_opts) (s : string_view)
    (hs : '=' ∉ s) (hlen : s.length < npos) :
    S.index s ≤ S.size ∧
    (S.index s = S.size ↔
      ∀ o ∈ S.TsOptions, s ≠ o.brief_name_t ∧ s ≠ o.full_name_t) ∧
    (S.index s < S.size →
      ∃ o, S.TsOptions[S.index s]? = some o ∧ (s = o.brief_name_t ∨ s = o.full_name_t)) := by
  rw [index_of_not_mem S s hs hlen]
  rcases index_impl_spec S s with ⟨h1, h2⟩ | ⟨h1, ⟨o, ho, hn⟩, _⟩
  · refine ⟨by omega, ⟨fun _ o ho => ?_, fun _ => h1⟩, fun hlt => by omega⟩
    have := h2 o ho
    simp only [option.named, not_or] at this
    exact this
  · refine ⟨by omega, ⟨fun he => by omega, fun hall => ?_⟩, fun _ => ⟨o, ho, hn⟩⟩
    have hmem : o ∈ S.TsOptions := List.getElem?_mem ho
    rcases hn with hn | hn
    · exact absurd hn (hall o hmem).1
    · exact absurd hn (hall o hmem).2

theorem C3_index_sound_complete_witness :
    '=' ∉ "-a".toList ∧ "-a".toList.length < npos ∧
    shared_brief.index "-a".toList ≤ shared_brief.size ∧
    (shared_brief.index "-a".toList = shared_brief.size ↔
      ∀ o ∈ shared_brief.TsOptions, "-a".toList ≠ o.brief_name_t ∧ "-a".toList ≠ o.full_name_t) ∧
    (shared_brief.index "-a".toList < shared_brief.size →
      ∃ o, shared_brief.TsOptions[shared_brief.index "-a".toList]? = some o ∧
        ("-a".toList = o.brief_name_t ∨ "-a".toList = o.full_name_t)) :=
  ⟨by decide, by decide, C3_index_sound_complete shared_brief "-a".toList (by decide) (by decide)⟩

/-- C2 (as stated, refuted). With two options sharing the brief name `-a`, `index("-a")` is 1
although the option at position 0 already has that brief name: the position returned is not the
smallest one. -/
theorem C2_first_match_counterexample :
    shared_brief.index "-a".toList = 1 ∧
    ∃ o, shared_brief.TsOptions[0]? = some o ∧
      ("-a".toList = o.brief_name_t ∨ "-a".toList = o.full_name_t) := by
  decide

/-- C2 (amended). Last-match resolution: for every schema and every name part `n` (a string
without `=`) that equals the brief or full name of at least one declared option, `index(n)` is
the largest position whose option has brief or full name `n`. -/
theorem C2_index_last_match (S : decl_opts) (n : string_view)
    (hs : '=' ∉ n) (hlen : n.length < npos)
    (hex : ∃ o ∈ S.TsOptions, n = o.brief_name_t ∨ n = o.full_name_t) :
    (∃ o, S.TsOptions[S.index n]? = some o ∧ (n = o.brief_name_t ∨ n = o.full_name_t)) ∧
    ∀ i o, S.TsOptions[i]? = some o → (n = o.brief_name_t ∨ n = o.full_name_t) →
      i ≤ S.index n := by
  rw [index_of_not_mem S n hs hlen]
  rcases index_impl_spec S n with ⟨_, h2⟩ | ⟨_, h2, h3⟩
  · obtain ⟨o, ho, hn⟩ := hex
    exact absurd hn (h2 o ho)
  · refine ⟨h2, fun i o hi hn => ?_⟩
    by_contra hc
    exact h3 i o (by omega) hi hn

theorem C2_index_last_match_witness :
    '=' ∉ "-a".toList ∧ "-a".toList.length < npos ∧
    (∃ o ∈ shared_brief.TsOptions, "-a".toList = o.brief_name_t ∨ "-a".toList = o.full_name_t) ∧
    (∃ o, shared_brief.TsOptions[shared_brief.index "-a".toList]? = some o ∧
      ("-a".toList = o.brief_name_t ∨ "-a".toList = o.full_name_t)) ∧
    ∀ i o, shared_brief.TsOptions[i]? = some o →
      ("-a".toList = o.brief_name_t ∨ "-a".toList = o.full_name_t) →
      i ≤ shared_brief.index "-a".toList :=
  ⟨by decide, by decide, ⟨⟨.int, "-a".toList, "-x".toList⟩, by decide, by decide⟩,
    C2_index_last_match shared_brief "-a".toList (by decide) (by decide)
      ⟨⟨.int, "-a".toList, "-x".toList⟩, by decide, by decide⟩⟩

/-! ## The result map -/

theorem mem_keys_assign {D : Type} (res : opts_map_t D) (key k : string_view) (a : any D) :
    k ∈ (res.assign key a).keys ↔ k = key ∨ k ∈ res.keys := by
  simp only [opts_map_t.assign, opts_map_t.keys, List.map_cons, List.mem_cons, List.mem_map,
    List.mem_filter, bne_iff_ne, ne_eq]
  constructor
  · rintro (h | ⟨e, ⟨he, _⟩, rfl⟩)
    · exact Or.inl h
    · exact Or.inr ⟨e, he, rfl⟩
  · rintro (h | ⟨e, he, rfl⟩)
    · exact Or.inl h
    · by_cases hk : e.1 = key
      · exact Or.inl hk
      · exact Or.inr ⟨e, ⟨he, hk⟩, rfl⟩

theorem at_eq_none_iff {D : Type} (res : opts_map_t D) (k : string_view) :
    res.at k = none ↔ k ∉ res.keys := by
  simp only [opts_map_t.at, opts_map_t.keys, Option.map_eq_none', List.find?_eq_none, beq_iff_eq,
    List.mem_map, not_exists, not_and]

/-! ## The loop of `parse` -/

theorem take_find_eq_name_part (t : string_view) (h : '=' ∈ t) :
    t.take (find t '=') = name_part t := by
  rw [find, if_pos h, name_part]
  induction t with
  | nil => simp at h
  | cons c cs ih =>
      by_cases hc : c = '='
      · subst hc; simp [List.indexOf_cons_self]
      · have hm : '=' ∈ cs := by
          rcases List.mem_cons.mp h with h | h
          · exact absurd h.symm hc
          · exact h
        rw [List.indexOf_cons_ne _ hc, List.take_succ_cons, ih hm, List.takeWhile_cons]
        simp [hc]

theorem find_ne_npos (t : string_view) (h : '=' ∈ t) (hlen : t.length < npos) :
    find t '=' ≠ npos := by
  have := find_lt_length t '=' h
  omega

/-- A raw option that resolves is converted by the conversion of the option it resolves to. -/
theorem parse_raw_opt_of_resolved {D : Type} (num_get_double : List Char → D × Bool)
    (S : decl_opts) (u : Indeterminate D) (t : string_view) (o : option)
    (ho : S.TsOptions[S.index t]? = some o) :
    S.parse_raw_opt num_get_double u t = some (parse_opt num_get_double o.value_t u t) := by
  simp [decl_opts.parse_raw_opt, decl_opts.make_parse_arr, ho]

theorem parse_raw_opt_isSome {D : Type} (num_get_double : List Char → D × Bool)
    (S : decl_opts) (u : Indeterminate D) (t : string_view) (h : S.index t < S.size) :
    ∃ r, S.parse_raw_opt num_get_double u t = some r := by
  have hlt : S.index t < S.TsOptions.length := h
  exact ⟨_, parse_raw_opt_of_resolved num_get_double S u t _ (List.getElem?_eq_getElem hlt)⟩

/-- The loop completes on raw options that contain `=` and resolve, and the keys it leaves are
the keys it started with and the name parts it consumed. -/
theorem parse_loop_keys {D : Type} (num_get_double : List Char → D × Bool) (S : decl_opts)
    (stack : Nat → Indeterminate D) (input : List string_view)
    (h : ∀ t ∈ input, '=' ∈ t ∧ t.length < npos ∧ S.index t < S.size)
    (i : Nat) (res : opts_map_t D) (out : ostream) :
    ∃ r, parse_loop num_get_double S stack input i res out = some r ∧
      ∀ k, k ∈ r.1.keys ↔ k ∈ res.keys ∨ ∃ t ∈ input, k = name_part t := by
  induction input generalizing i res out with
  | nil => exact ⟨(res, out), rfl, by simp⟩
  | cons t ts ih =>
      obtain ⟨heq, hlen, hidx⟩ := h t (List.mem_cons_self _ _)
      obtain ⟨⟨a, printed⟩, ha⟩ := parse_raw_opt_isSome num_get_double S (stack i) t hidx
      obtain ⟨r, hr, hk⟩ := ih (fun t' ht' => h t' (List.mem_cons_of_mem _ ht')) (i + 1)
        (res.assign (name_part t) a) (out ++ printed)
      refine ⟨r, ?_, ?_⟩
      · rw [parse_loop, if_neg (find_ne_npos t heq hlen)]
        simp only [ha, take_find_eq_name_part t heq]
        exact hr
      · intro k
        rw [hk k, mem_keys_assign]
        simp only [List.mem_cons, exists_eq_or_imp]
        tauto

/-- C5. The result holds only what was typed, keyed by the literal text typed: when every input
string contains `=` and resolves to a declared option, `parse` returns a result whose keys are
exactly the name parts (the text before the first `=`) of the inputs. In particular no input
gives an empty result, and an option none of whose names was typed has no entry. Inputs are
strings whose length fits `size_t`. -/
theorem C5_keys_are_typed_name_parts {D : Type} (num_get_double : List Char → D × Bool)
    (S : decl_opts) (stack : Nat → Indeterminate D) (prog : string_view)
    (tokens : List string_view)
    (h : ∀ t ∈ tokens, '=' ∈ t ∧ t.length < npos ∧ S.index t < S.size) :
    ∃ parsed printed, S.parse num_get_double stack (prog :: tokens) = some (parsed, printed) ∧
      (∀ k, k ∈ parsed.res.keys ↔ ∃ t ∈ tokens, k = name_part t) ∧
      (tokens = [] → parsed.res = []) ∧
      (∀ o ∈ S.TsOptions,
        (∀ t ∈ tokens, name_part t ≠ o.brief_name_t ∧ name_part t ≠ o.full_name_t) →
        parsed.res.at o.brief_name_t = none ∧ parsed.res.at o.full_name_t = none) := by
  obtain ⟨r, hr, hk⟩ := parse_loop_keys num_get_double S stack tokens h 0 [] []
  have hk' : ∀ k, k ∈ r.1.keys ↔ ∃ t ∈ tokens, k = name_part t := by
    intro k
    rw [hk k]
    simp [opts_map_t.keys]
  refine ⟨⟨r.1⟩, r.2, by simp [decl_opts.parse, hr], hk', ?_, ?_⟩
  · intro he
    subst he
    simp only [parse_loop, Option.some.injEq] at hr
    rw [← hr]
  · intro o _ hno
    constructor
    · rw [at_eq_none_iff, hk']
      rintro ⟨t, ht, he⟩
      exact (hno t ht).1 he.symm
    · rw [at_eq_none_iff, hk']
      rintro ⟨t, ht, he⟩
      exact (hno t ht).2 he.symm

theorem C5_keys_are_typed_name_parts_witness :
    (∀ t ∈ ["-first=2".toList, "-f=3".toList],
      '=' ∈ t ∧ t.length < npos ∧ main_opts.index t < main_opts.size) ∧
    ∃ parsed printed,
      main_opts.parse no_double (stack_of 0)
        ("a.out".toList :: ["-first=2".toList, "-f=3".toList]) = some (parsed, printed) ∧
      (∀ k, k ∈ parsed.res.keys ↔ ∃ t ∈ ["-first=2".toList, "-f=3".toList], k = name_part t) ∧
      (["-first=2".toList, "-f=3".toList] = [] → parsed.res = []) ∧
      (∀ o ∈ main_opts.TsOptions,
        (∀ t ∈ ["-first=2".toList, "-f=3".toList],
          name_part t ≠ o.brief_name_t ∧ name_part t ≠ o.full_name_t) →
        parsed.res.at o.brief_name_t = none ∧ parsed.res.at o.full_name_t = none) :=
  ⟨by decide, C5_keys_are_typed_name_parts no_double main_opts (stack_of 0) "a.out".toList
    ["-first=2".toList, "-f=3".toList] (by decide)⟩

/-! ## Lookup after `parse` -/

/-- C1 (code at the failing input). On `main`'s schema and the inputs `-first=2 -s=3.14`, `parse`
returns; the `double` option is found under `-s`, the `int` option under `-first` with value 2,
and the lookup of the `int` option by its brief name `-f` throws `std::out_of_range`. -/
theorem C1_alias_lookup_out_of_range {D : Type} (num_get_double : List Char → D × Bool)
    (stack : Nat → Indeterminate D) :
    ∃ parsed printed,
      main_opts.parse num_get_double stack
        ["a.out".toList, "-first=2".toList, "-s=3.14".toList] = some (parsed, printed) ∧
      getter_brief ⟨.double, "-s".toList, "-second".toList⟩ parsed
        = .ok (any.double (num_get_double "3.14".toList).1) ∧
      getter_full ⟨.int, "-f".toList, "-first".toList⟩ parsed = .ok (any.int 2) ∧
      getter_brief ⟨.int, "-f".toList, "-first".toList⟩ parsed = .error .out_of_range :=
  ⟨_, _, rfl, rfl, rfl, rfl⟩

/-- C4 (code at the failing input). On `main`'s schema and the inputs `-f=1 -first=2`, the two
spellings are two entries: the lookup by the full name gives 2 and the lookup by the brief name
still gives 1, the value of the earlier input. -/
theorem C4_aliases_are_separate_entries {D : Type} (num_get_double : List Char → D × Bool)
    (stack : Nat → Indeterminate D) :
    ∃ parsed printed,
      main_opts.parse num_get_double stack
        ["a.out".toList, "-f=1".toList, "-first=2".toList] = some (parsed, printed) ∧
      getter_full ⟨.int, "-f".toList, "-first".toList⟩ parsed = .ok (any.int 2) ∧
      getter_brief ⟨.int, "-f".toList, "-first".toList⟩ parsed = .ok (any.int 1) :=
  ⟨_, _, rfl, rfl, rfl⟩

/-- C6 (code at the failing input). On `main`'s schema the input `-z=1` resolves to the size of
the schema, so `parse(raw_opt)` reads `parse_arr` one past its end: the behaviour is undefined,
for the single input and for any list that contains it, and `print_bad_opt` is never reached. -/
theorem C6_unknown_option_reads_past_parse_arr {D : Type}
    (num_get_double : List Char → D × Bool) (stack : Nat → Indeterminate D)
    (u : Indeterminate D) :
    main_opts.index "-z=1".toList = main_opts.size ∧
    main_opts.parse_raw_opt num_get_double u "-z=1".toList = none ∧
    main_opts.parse num_get_double stack
      ["a.out".toList, "-f=1".toList, "-z=1".toList] = none :=
  ⟨by decide, rfl, rfl⟩

/-! ## Conversion of one raw option -/

theorem rhs_start_append (n v : List Char) (h : '=' ∉ n) (hlen : (n ++ '=' :: v).length < npos) :
    rhs_start (n ++ '=' :: v) = n.length + 1 := by
  rw [rhs_start, find_append_cons n v _ h]
  apply Nat.mod_eq_of_lt
  simp only [List.length_append, List.length_cons, npos, SIZE_MOD] at hlen ⊢
  omega

theorem string_view_at_append (n v : List Char) (h0 : '\x00' ∉ v) :
    string_view_at (n ++ '=' :: v) (n.length + 1) = v := by
  have hd : (n ++ '=' :: v).drop (n.length + 1) = v := by
    simp
  rw [string_view_at, hd, List.takeWhile_eq_self_iff]
  intro c hc
  simp only [bne_iff_ne, ne_eq]
  rintro rfl
  exact h0 hc

/-- The text handed to the conversions of a raw option `n=v`: the part after the first `=`. -/
theorem rhs_of_append (n v : List Char) (h : '=' ∉ n) (hc : c_string (n ++ '=' :: v)) :
    string_view_at (n ++ '=' :: v) (rhs_start (n ++ '=' :: v)) = v := by
  rw [rhs_start_append n v h hc.2]
  apply string_view_at_append
  intro hv
  exact hc.1 (by simp [hv])

theorem parse_raw_opt_eq_some {D : Type} (num_get_double : List Char → D × Bool)
    (S : decl_opts) (u : Indeterminate D) (t : string_view) (r : any D × ostream)
    (h : S.parse_raw_opt num_get_double u t = some r) :
    ∃ o, S.TsOptions[S.index t]? = some o ∧ r = parse_opt num_get_double o.value_t u t := by
  unfold decl_opts.parse_raw_opt decl_opts.make_parse_arr at h
  rw [List.getElem?_map] at h
  cases ho : S.TsOptions[S.index t]? with
  | none => simp [ho] at h
  | some o =>
      simp only [ho, Option.map_some', Option.some.injEq] at h
      exact ⟨o, rfl, h.symm⟩

/-- A property of entries that every store of the loop establishes holds of the final map. -/
theorem parse_loop_invariant {D : Type} (num_get_double : List Char → D × Bool) (S : decl_opts)
    (stack : Nat → Indeterminate D) (P : string_view → any D → Prop) (input : List string_view)
    (hstep : ∀ t ∈ input, ∀ u a printed, find t '=' ≠ npos →
      S.parse_raw_opt num_get_double u t = some (a, printed) → P (t.take (find t '=')) a)
    (i : Nat) (res : opts_map_t D) (out : ostream) (hres : ∀ e ∈ res, P e.1 e.2)
    (r : opts_map_t D × ostream)
    (hr : parse_loop num_get_double S stack input i res out = some r) :
    ∀ e ∈ r.1, P e.1 e.2 := by
  induction input generalizing i res out with
  | nil =>
      simp only [parse_loop, Option.some.injEq] at hr
      rw [← hr]; exact hres
  | cons t ts ih =>
      rw [parse_loop] at hr
      by_cases hf : find t '=' = npos
      · simp [hf] at hr
      · rw [if_neg hf] at hr
        cases hp : S.parse_raw_opt num_get_double (stack i) t with
        | none => simp [hp] at hr
        | some ap =>
            obtain ⟨a, printed⟩ := ap
            simp only [hp] at hr
            refine ih (fun t' ht' => hstep t' (List.mem_cons_of_mem _ ht')) (i + 1) _ _ ?_ hr
            intro e he
            simp only [opts_map_t.assign, List.mem_cons, List.mem_filter] at he
            rcases he with he | ⟨he, _⟩
            · rw [he]
              exact hstep t (List.mem_cons_self _ _) (stack i) a printed hf hp
            · exact hres e he

/-- C7 (code at the failing input). On a schema with the `bool` option `-v`/`-verbose`, the raw
option `-v=0` converts to `false`, and `-v=false` and the bare `-v` convert to `false` and print
the invalid-value line: the value is stream-extracted by the primary template. The overload
`parse_opt_impl(opt, select_type<bool>)`, which returns `true`, is not what `parse` runs; and
`parse` of `-v=0` stores `false`. -/
theorem C7_flag_is_stream_extracted {D : Type} (num_get_double : List Char → D × Bool)
    (u : Indeterminate D) (stack : Nat → Indeterminate D) :
    typed_opts.TsOptions[typed_opts.index "-v=0".toList]?
      = some ⟨.bool, "-v".toList, "-verbose".toList⟩ ∧
    typed_opts.parse_raw_opt num_get_double u "-v=0".toList = some (any.bool false, []) ∧
    typed_opts.parse_raw_opt num_get_double u "-v=false".toList
      = some (any.bool false, print_bad_value "-v=false".toList) ∧
    typed_opts.parse_raw_opt num_get_double u "-v".toList
      = some (any.bool false, print_bad_value "-v".toList) ∧
    parse_opt_impl_bool "-v=0".toList = true ∧
    typed_opts.parse num_get_double stack ["a.out".toList, "-v=0".toList]
      = some (⟨[("-v".toList, any.bool false)]⟩, []) :=
  ⟨by decide, rfl, rfl, rfl, rfl, rfl⟩

theorem digits_value_eq (ds : List Char) : digits_value ds = decimal_value ds := by
  induction ds using List.reverseRecOn with
  | nil => simp [digits_value, decimal_value]
  | append_singleton l c ih =>
      have h1 : digits_value (l ++ [c]) = 10 * digits_value l + (c.toNat - 48) := by
        simp [digits_value, List.foldl_append]
      rw [h1, ih]
      simp only [decimal_value, List.map_append, List.map_cons, List.map_nil,
        List.reverse_append, List.reverse_cons, List.reverse_nil, List.nil_append,
        List.singleton_append, Nat.ofDigits_cons]
      omega

theorem isspace_of_isdigit (c : Char) (h : isdigit c = true) : isspace c = false := by
  simp only [isdigit, Bool.and_eq_true, decide_eq_true_eq] at h
  simp only [isspace, Bool.or_eq_false_iff, decide_eq_false_iff_not, Bool.and_eq_false_imp,
    decide_eq_true_eq, not_le]
  refine ⟨?_, fun _ => by omega⟩
  rintro rfl
  revert h
  decide

theorem ne_sign_of_isdigit (c : Char) (h : isdigit c = true) : c ≠ '-' ∧ c ≠ '+' := by
  constructor <;> (rintro rfl; revert h; decide)

theorem takeWhile_isdigit (ds : List Char) (h : decimal ds) : ds.takeWhile isdigit = ds :=
  List.takeWhile_eq_self_iff.mpr h.2

theorem num_get_int_of_parts (s body ds : List Char) (neg : Bool) (v : Int)
    (hneg : decide (s.head? = some '-') = neg)
    (hbody : (if s.head? = some '-' ∨ s.head? = some '+' then s.tail else s) = body)
    (hds : body.takeWhile isdigit = ds) (hne : ds ≠ [])
    (hv : (if neg = true then -(digits_value ds : Int) else (digits_value ds : Int)) = v)
    (h1 : INT_MIN ≤ v) (h2 : v ≤ INT_MAX) :
    num_get_int s = (v, false) := by
  subst hneg hbody hds hv
  simp only [num_get_int]
  rw [if_neg hne, if_neg (not_lt.mpr h1), if_neg (not_lt.mpr h2)]

/-- The scan of an optionally signed decimal numeral that fits `int` stores the integer the
numeral denotes and leaves `failbit` clear. -/
theorem num_get_int_numeral (s ds : List Char) (hs : optional_sign s) (hds : decimal ds)
    (hfit : INT_MIN ≤ signed_value s ds ∧ signed_value s ds ≤ INT_MAX) :
    num_get_int (s ++ ds) = (signed_value s ds, false) := by
  have htw : ds.takeWhile isdigit = ds := takeWhile_isdigit _ hds
  rcases hs with rfl | rfl | rfl
  · obtain ⟨c, cs, rfl⟩ := List.exists_cons_of_ne_nil hds.1
    have hne := ne_sign_of_isdigit c (hds.2 c (List.mem_cons_self _ _))
    refine num_get_int_of_parts _ (c :: cs) (c :: cs) false _ ?_ ?_ htw hds.1 ?_ hfit.1 hfit.2
    · simp [hne.1]
    · simp [hne.1, hne.2]
    · simp [signed_value, digits_value_eq]
  · refine num_get_int_of_parts _ ds ds false _ ?_ ?_ htw hds.1 ?_ hfit.1 hfit.2
    · simp
    · simp
    · simp [signed_value, digits_value_eq]
  · refine num_get_int_of_parts _ ds ds true _ ?_ ?_ htw hds.1 ?_ hfit.1 hfit.2
    · simp
    · simp
    · simp [signed_value, digits_value_eq]

theorem extract_numeral (value : Int) (s ds : List Char) (hs : optional_sign s)
    (hds : decimal ds)
    (hfit : INT_MIN ≤ signed_value s ds ∧ signed_value s ds ≤ INT_MAX) :
    extract num_get_int value (s ++ ds) = (signed_value s ds, false) := by
  have hdrop : (s ++ ds).dropWhile isspace = s ++ ds := by
    obtain ⟨c, cs, rfl⟩ := List.exists_cons_of_ne_nil hds.1
    have hc : isspace c = false := isspace_of_isdigit c (hds.2 c (List.mem_cons_self _ _))
    rcases hs with rfl | rfl | rfl
    · simp [List.dropWhile_cons, hc]
    · rfl
    · rfl
  have hne : s ++ ds ≠ [] := by
    intro h
    exact hds.1 (List.append_eq_nil.mp h).2
  simp only [extract, hdrop, hne, if_false]
  exact num_get_int_numeral s ds hs hds hfit
/-- Text without a numeral at its front fails the extraction: a blank text leaves the local as it
was, any other stores 0. -/
theorem extract_lacks_numeral (value : Int) (v : List Char) (h : lacks_numeral v) :
    extract num_get_int value v = (if v.dropWhile isspace = [] then value else 0, true) := by
  unfold lacks_numeral at h
  simp only [extract]
  by_cases hr : v.dropWhile isspace = []
  · simp [hr]
  · rw [if_neg hr, if_neg hr]
    have hds : (if (v.dropWhile isspace).head? = some '-' ∨ (v.dropWhile isspace).head? = some '+'
        then (v.dropWhile isspace).tail else v.dropWhile isspace).takeWhile isdigit = [] := by
      generalize (if (v.dropWhile isspace).head? = some '-' ∨
        (v.dropWhile isspace).head? = some '+'
        then (v.dropWhile isspace).tail else v.dropWhile isspace) = body at h
      cases body with
      | nil => rfl
      | cons c cs =>
          have hc := h c rfl
          simp [List.takeWhile_cons, hc]
    simp only [num_get_int, hds, if_true]

/-- C9 (as stated, refuted). In a schema where the `int` option `-f`/`-first` is followed by a
`double` option that reuses the brief name `-f`, the raw option `-f=2` resolves to position 1 and
is converted by the later option: whatever the `double` scan, what is converted and stored under
`-f` is a `double`, not the `int` 2. -/
theorem C9_integer_conversion_counterexample :
    shared_typed.TsOptions[0]? = some ⟨.int, "-f".toList, "-first".toList⟩ ∧
    shared_typed.index "-f=2".toList = 1 ∧
    shared_typed.TsOptions[1]? = some ⟨.double, "-f".toList, "-t".toList⟩ ∧
    (∀ (D : Type) (num_get_double : List Char → D × Bool) (u : Indeterminate D),
      shared_typed.parse_raw_opt num_get_double u "-f=2".toList
        = some (any.double (num_get_double "2".toList).1,
            if (num_get_double "2".toList).2 then print_bad_value "-f=2".toList else [])) ∧
    ∀ (D : Type) (num_get_double : List Char → D × Bool) (stack : Nat → Indeterminate D),
      shared_typed.parse num_get_double stack ["a.out".toList, "-f=2".toList]
        = some (⟨[("-f".toList, any.double (num_get_double "2".toList).1)]⟩,
            if (num_get_double "2".toList).2 then print_bad_value "-f=2".toList else []) :=
  ⟨by decide, by decide, by decide, fun _ _ _ => rfl, fun _ _ _ => rfl⟩

/-- C9 (amended). Integer conversion is correct on well-formed input: for a raw option `n=d`
whose name `n` has no `=` and which resolves to an option declared `int`, where `d` is an
optional sign followed by decimal digits and denotes an integer that fits `int`, `parse(raw_opt)`
yields that integer and prints nothing, and `parse` of that one input stores it under `n`. -/
theorem C9_integer_conversion {D : Type} (num_get_double : List Char → D × Bool)
    (S : decl_opts) (n s ds : List Char) (o : option)
    (hn : '=' ∉ n) (hc : c_string (n ++ '=' :: (s ++ ds)))
    (ho : S.TsOptions[S.index (n ++ '=' :: (s ++ ds))]? = some o) (hT : o.value_t = .int)
    (hs : optional_sign s) (hds : decimal ds)
    (hfit : INT_MIN ≤ signed_value s ds ∧ signed_value s ds ≤ INT_MAX) :
    (∀ u : Indeterminate D, S.parse_raw_opt num_get_double u (n ++ '=' :: (s ++ ds))
      = some (any.int (signed_value s ds), [])) ∧
    ∀ (stack : Nat → Indeterminate D) (prog : string_view),
      S.parse num_get_double stack [prog, n ++ '=' :: (s ++ ds)]
        = some (⟨[(n, any.int (signed_value s ds))]⟩, []) := by
  have h1 : ∀ u : Indeterminate D, S.parse_raw_opt num_get_double u (n ++ '=' :: (s ++ ds))
      = some (any.int (signed_value s ds), []) := by
    intro u
    rw [parse_raw_opt_of_resolved num_get_double S u _ o ho, hT]
    simp only [parse_opt, parse_opt_impl, rhs_of_append n _ hn hc,
      extract_numeral u.int_value s ds hs hds hfit]
    rfl
  refine ⟨h1, fun stack prog => ?_⟩
  have hf : find (n ++ '=' :: (s ++ ds)) '=' = n.length := find_append_cons n _ _ hn
  have hnp : n.length ≠ npos := by
    have := hc.2
    simp only [List.length_append, List.length_cons] at this
    omega
  simp [decl_opts.parse, parse_loop, hf, hnp, h1, opts_map_t.assign]

theorem C9_integer_conversion_witness :
    '=' ∉ "-first".toList ∧ c_string ("-first".toList ++ '=' :: ([] ++ "2".toList)) ∧
    main_opts.TsOptions[main_opts.index ("-first".toList ++ '=' :: ([] ++ "2".toList))]?
      = some ⟨.int, "-f".toList, "-first".toList⟩ ∧
    optional_sign [] ∧ decimal "2".toList ∧
    (INT_MIN ≤ signed_value [] "2".toList ∧ signed_value [] "2".toList ≤ INT_MAX) ∧
    signed_value [] "2".toList = 2 ∧
    (∀ u : Indeterminate Unit,
      main_opts.parse_raw_opt no_double u ("-first".toList ++ '=' :: ([] ++ "2".toList))
        = some (any.int (signed_value [] "2".toList), [])) ∧
    ∀ (stack : Nat → Indeterminate Unit) (prog : string_view),
      main_opts.parse no_double stack [prog, "-first".toList ++ '=' :: ([] ++ "2".toList)]
        = some (⟨[("-first".toList, any.int (signed_value [] "2".toList))]⟩, []) :=
  ⟨by decide, by decide, by decide, by decide, by decide, by decide, by decide,
    C9_integer_conversion no_double main_opts "-first".toList [] "2".toList
      ⟨.int, "-f".toList, "-first".toList⟩ (by decide) (by decide) (by decide) rfl
      (by decide) (by decide) (by decide)⟩

/-- C10 (as stated, refuted). On `main`'s schema the input `-first=abc` prints the invalid-value
line and `parse` still returns a result that holds an `int` for it, the value 0. -/
theorem C10_ill_typed_value_counterexample :
    main_opts.parse no_double (stack_of 7) ["a.out".toList, "-first=abc".toList]
      = some (⟨[("-first".toList, any.int 0)]⟩, print_bad_value "-first=abc".toList) :=
  rfl

/-- C10 (amended). Ill-typed values are reported and stored all the same: for a raw option `n=v`
whose name `n` has no `=` and which resolves to an option declared `int`, where `v` is not blank
and holds no numeral (after leading white space and an optional sign no digit follows, as in
`abc`), `parse(raw_opt)` prints the invalid-value line for the raw option and yields the `int`
0; `parse` of that one input stores this `int` under `n`. -/
theorem C10_ill_typed_value_reported_and_stored {D : Type}
    (num_get_double : List Char → D × Bool) (S : decl_opts) (n v : List Char) (o : option)
    (hn : '=' ∉ n) (hc : c_string (n ++ '=' :: v))
    (ho : S.TsOptions[S.index (n ++ '=' :: v)]? = some o) (hT : o.value_t = .int)
    (hb : v.dropWhile isspace ≠ []) (hv : lacks_numeral v) :
    (∀ u : Indeterminate D, S.parse_raw_opt num_get_double u (n ++ '=' :: v)
      = some (any.int 0, print_bad_value (n ++ '=' :: v))) ∧
    ∀ (stack : Nat → Indeterminate D) (prog : string_view),
      S.parse num_get_double stack [prog, n ++ '=' :: v]
        = some (⟨[(n, any.int 0)]⟩, print_bad_value (n ++ '=' :: v)) := by
  have h1 : ∀ u : Indeterminate D, S.parse_raw_opt num_get_double u (n ++ '=' :: v)
      = some (any.int 0, print_bad_value (n ++ '=' :: v)) := by
    intro u
    rw [parse_raw_opt_of_resolved num_get_double S u _ o ho, hT]
    simp only [parse_opt, parse_opt_impl, rhs_of_append n _ hn hc,
      extract_lacks_numeral u.int_value v hv, if_true, if_neg hb]
  refine ⟨h1, fun stack prog => ?_⟩
  have hf : find (n ++ '=' :: v) '=' = n.length := find_append_cons n _ _ hn
  have hnp : n.length ≠ npos := by
    have := hc.2
    simp only [List.length_append, List.length_cons] at this
    omega
  simp [decl_opts.parse, parse_loop, hf, hnp, h1, opts_map_t.assign]

theorem C10_ill_typed_value_reported_and_stored_witness :
    '=' ∉ "-first".toList ∧ c_string ("-first".toList ++ '=' :: "abc".toList) ∧
    main_opts.TsOptions[main_opts.index ("-first".toList ++ '=' :: "abc".toList)]?
      = some ⟨.int, "-f".toList, "-first".toList⟩ ∧
    "abc".toList.dropWhile isspace ≠ [] ∧ lacks_numeral "abc".toList ∧
    (∀ u : Indeterminate Unit,
      main_opts.parse_raw_opt no_double u ("-first".toList ++ '=' :: "abc".toList)
        = some (any.int 0, print_bad_value ("-first".toList ++ '=' :: "abc".toList))) ∧
    ∀ (stack : Nat → Indeterminate Unit) (prog : string_view),
      main_opts.parse no_double stack [prog, "-first".toList ++ '=' :: "abc".toList]
        = some (⟨[("-first".toList, any.int 0)]⟩,
            print_bad_value ("-first".toList ++ '=' :: "abc".toList)) :=
  ⟨by decide, by decide, by decide, by decide, by simp [lacks_numeral, isspace, isdigit],
    C10_ill_typed_value_reported_and_stored no_double main_opts "-first".toList "abc".toList
      ⟨.int, "-f".toList, "-first".toList⟩ (by decide) (by decide) (by decide) rfl
      (by decide) (by simp [lacks_numeral, isspace, isdigit])⟩

/-! ## Missing options and stored types -/

/-- The name part `index` resolves is the text before the first `=`. -/
theorem substr_find_eq_name_part (t : string_view) (hlen : t.length < npos) :
    substr t 0 (find t '=') = name_part t := by
  by_cases h : '=' ∈ t
  · have hlt := find_lt_length t '=' h
    rw [substr, List.drop_zero, Nat.sub_zero, Nat.min_eq_left (by omega)]
    exact take_find_eq_name_part t h
  · rw [substr_find_of_not_mem t h hlen, name_part, List.takeWhile_eq_self_iff.mpr]
    intro c hc
    simp only [bne_iff_ne, ne_eq]
    rintro rfl
    exact h hc

theorem mem_of_find_ne_npos (t : string_view) (h : find t '=' ≠ npos) : '=' ∈ t := by
  by_contra hc
  exact h (find_of_not_mem t _ hc)

theorem mem_of_at_eq_some {D : Type} (res : opts_map_t D) (k : string_view) (a : any D)
    (h : res.at k = some a) : (k, a) ∈ res := by
  simp only [opts_map_t.at, Option.map_eq_some'] at h
  obtain ⟨e, he, ha⟩ := h
  have hk : e.1 = k := by simpa using List.find?_some he
  have hm := List.mem_of_find?_eq_some he
  rw [← hk, ← ha]
  exact hm

/-- Every key `parse` leaves in the map is the name part of one of the inputs. -/
theorem parse_keys_typed {D : Type} (num_get_double : List Char → D × Bool) (S : decl_opts)
    (stack : Nat → Indeterminate D) (prog : string_view) (tokens : List string_view)
    (parsed : parsed_opts D) (printed : ostream)
    (h : S.parse num_get_double stack (prog :: tokens) = some (parsed, printed)) :
    ∀ e ∈ parsed.res, ∃ t ∈ tokens, e.1 = name_part t := by
  simp only [decl_opts.parse, Option.map_eq_some'] at h
  obtain ⟨r, hr, he⟩ := h
  simp only [Prod.mk.injEq] at he
  rw [← he.1]
  refine parse_loop_invariant num_get_double S stack (fun k _ => ∃ t ∈ tokens, k = name_part t)
    tokens ?_ 0 [] [] (by simp) r hr
  intro t ht _ _ _ hf _
  exact ⟨t, ht, take_find_eq_name_part t (mem_of_find_ne_npos t hf)⟩

/-- C11. MissingOption: when no input has a name part equal to the brief or the full name of the
option `o`, every result `parse` returns makes both lookups of `o` throw `std::out_of_range`
(no default value is produced); and `parse` does return when every input contains `=`, fits
`size_t` and resolves. -/
theorem C11_missing_option {D : Type} (num_get_double : List Char → D × Bool) (S : decl_opts)
    (stack : Nat → Indeterminate D) (prog : string_view) (tokens : List string_view)
    (o : option)
    (hno : ∀ t ∈ tokens, name_part t ≠ o.brief_name_t ∧ name_part t ≠ o.full_name_t) :
    (∀ parsed printed, S.parse num_get_double stack (prog :: tokens) = some (parsed, printed) →
      getter_brief o parsed = .error .out_of_range ∧
      getter_full o parsed = .error .out_of_range) ∧
    ((∀ t ∈ tokens, '=' ∈ t ∧ t.length < npos ∧ S.index t < S.size) →
      ∃ parsed printed, S.parse num_get_double stack (prog :: tokens) = some (parsed, printed)) := by
  constructor
  · intro parsed printed h
    have hk := parse_keys_typed num_get_double S stack prog tokens parsed printed h
    have hnone : ∀ k, (∀ t ∈ tokens, name_part t ≠ k) → parsed.res.at k = none := by
      intro k hk'
      cases ha : parsed.res.at k with
      | none => rfl
      | some a =>
          obtain ⟨t, ht, he⟩ := hk _ (mem_of_at_eq_some _ _ _ ha)
          exact absurd he.symm (hk' t ht)
    constructor
    · simp only [getter_brief, hnone o.brief_name_t (fun t ht => (hno t ht).1)]
    · simp only [getter_full, hnone o.full_name_t (fun t ht => (hno t ht).2)]
  · intro hwf
    obtain ⟨r, hr, _⟩ := parse_loop_keys num_get_double S stack tokens hwf 0 [] []
    exact ⟨⟨r.1⟩, r.2, by simp [decl_opts.parse, hr]⟩

theorem C11_missing_option_witness :
    (∀ t ∈ ["-s=3.14".toList],
      name_part t ≠ "-f".toList ∧ name_part t ≠ "-first".toList) ∧
    (∀ parsed printed,
      main_opts.parse no_double (stack_of 0) ("a.out".toList :: ["-s=3.14".toList])
        = some (parsed, printed) →
      getter_brief ⟨.int, "-f".toList, "-first".toList⟩ parsed = .error .out_of_range ∧
      getter_full ⟨.int, "-f".toList, "-first".toList⟩ parsed = .error .out_of_range) ∧
    ((∀ t ∈ ["-s=3.14".toList], '=' ∈ t ∧ t.length < npos ∧ main_opts.index t < main_opts.size) →
      ∃ parsed printed,
        main_opts.parse no_double (stack_of 0) ("a.out".toList :: ["-s=3.14".toList])
          = some (parsed, printed)) :=
  ⟨by decide, C11_missing_option no_double main_opts (stack_of 0) "a.out".toList
    ["-s=3.14".toList] ⟨.int, "-f".toList, "-first".toList⟩ (by decide)⟩

theorem parse_opt_type {D : Type} (num_get_double : List Char → D × Bool)
    (T : OptsParse.value_t) (u : Indeterminate D) (t : string_view) :
    (parse_opt num_get_double T u t).1.type = T := by
  cases T <;> rfl

/-- With distinct identifiers a name belongs to one position of the schema only. -/
theorem position_unique (S : decl_opts) (hd : distinct_identifiers S) (k : string_view)
    (i j : Nat) (o p : option) (hi : S.TsOptions[i]? = some o) (hj : S.TsOptions[j]? = some p)
    (ho : o.named k) (hp : p.named k) : i = j := by
  obtain ⟨hil, hie⟩ := List.getElem?_eq_some.mp hi
  obtain ⟨hjl, hje⟩ := List.getElem?_eq_some.mp hj
  have hpw := List.pairwise_iff_getElem.mp hd
  simp only [option.named] at ho hp
  rcases Nat.lt_trichotomy i j with hlt | heq | hgt
  · have := hpw i j hil hjl hlt
    rw [hie, hje] at this
    obtain ⟨h1, h2, h3, h4⟩ := this
    rcases ho with ho | ho <;> rcases hp with hp | hp <;> subst ho <;> simp_all
  · exact heq
  · have := hpw j i hjl hil hgt
    rw [hie, hje] at this
    obtain ⟨h1, h2, h3, h4⟩ := this
    rcases ho with ho | ho <;> rcases hp with hp | hp <;> subst ho <;> simp_all

/-- C12. Stored values carry their option's declared type: in a schema with pairwise distinct
identifiers, when every input contains `=`, fits `size_t` and resolves, `parse` returns a result
in which every entry holds a value of the type declared by the option that has the entry's key
as brief or full name; so no lookup of a declared option throws `std::bad_any_cast`. -/
theorem C12_stored_type_is_declared_type {D : Type} (num_get_double : List Char → D × Bool)
    (S : decl_opts) (stack : Nat → Indeterminate D) (prog : string_view)
    (tokens : List string_view) (hd : distinct_identifiers S)
    (h : ∀ t ∈ tokens, '=' ∈ t ∧ t.length < npos ∧ S.index t < S.size) :
    ∃ parsed printed, S.parse num_get_double stack (prog :: tokens) = some (parsed, printed) ∧
      (∀ e ∈ parsed.res, ∀ o ∈ S.TsOptions,
        (e.1 = o.brief_name_t ∨ e.1 = o.full_name_t) → e.2.type = o.value_t) ∧
      (∀ o ∈ S.TsOptions,
        getter_brief o parsed ≠ .error .bad_any_cast ∧
        getter_full o parsed ≠ .error .bad_any_cast) := by
  obtain ⟨r, hr, _⟩ := parse_loop_keys num_get_double S stack tokens h 0 [] []
  have hinv : ∀ e ∈ r.1, ∀ o ∈ S.TsOptions, o.named e.1 → e.2.type = o.value_t := by
    refine parse_loop_invariant num_get_double S stack
      (fun k a => ∀ o ∈ S.TsOptions, o.named k → a.type = o.value_t) tokens ?_ 0 [] []
      (by simp) r hr
    intro t ht u a printed hf hp o ho hn
    obtain ⟨heq, hlen, _⟩ := h t ht
    obtain ⟨p, hpi, hpr⟩ := parse_raw_opt_eq_some num_get_double S u t _ hp
    have ha : a = (parse_opt num_get_double p.value_t u t).1 := congrArg Prod.fst hpr
    rw [ha, parse_opt_type]
    rw [take_find_eq_name_part t heq] at hn
    have hidx : S.index t = S.index_impl (name_part t) := by
      rw [decl_opts.index, substr_find_eq_name_part t hlen]
    rw [hidx] at hpi
    have hpn : p.named (name_part t) := by
      rcases index_impl_spec S (name_part t) with ⟨h1, _⟩ | ⟨_, ⟨q, hq, hqn⟩, _⟩
      · rw [h1] at hpi
        have hge : S.TsOptions.length ≤ S.size := Nat.le_refl _
        rw [List.getElem?_eq_none hge] at hpi
        exact Option.noConfusion hpi
      · rw [hq] at hpi
        rw [← Option.some.inj hpi]
        exact hqn
    obtain ⟨j, hj⟩ := List.mem_iff_getElem?.mp ho
    have hij := position_unique S hd (name_part t) _ j p o hpi hj hpn hn
    rw [hij, hj] at hpi
    rw [Option.some.inj hpi]
  refine ⟨⟨r.1⟩, r.2, by simp [decl_opts.parse, hr], hinv, fun o ho => ?_⟩
  constructor
  · simp only [getter_brief]
    cases ha : opts_map_t.at r.1 o.brief_name_t with
    | none => simp
    | some a =>
        have := hinv _ (mem_of_at_eq_some _ _ _ ha) o ho (Or.inl rfl)
        simp [any_cast, this]
  · simp only [getter_full]
    cases ha : opts_map_t.at r.1 o.full_name_t with
    | none => simp
    | some a =>
        have := hinv _ (mem_of_at_eq_some _ _ _ ha) o ho (Or.inr rfl)
        simp [any_cast, this]

theorem C12_stored_type_is_declared_type_witness :
    distinct_identifiers typed_opts ∧
    (∀ t ∈ ["-v=1".toList, "-first=2".toList],
      '=' ∈ t ∧ t.length < npos ∧ typed_opts.index t < typed_opts.size) ∧
    ∃ parsed printed,
      typed_opts.parse no_double (stack_of 0)
        ("a.out".toList :: ["-v=1".toList, "-first=2".toList]) = some (parsed, printed) ∧
      (∀ e ∈ parsed.res, ∀ o ∈ typed_opts.TsOptions,
        (e.1 = o.brief_name_t ∨ e.1 = o.full_name_t) → e.2.type = o.value_t) ∧
      (∀ o ∈ typed_opts.TsOptions,
        getter_brief o parsed ≠ .error .bad_any_cast ∧
        getter_full o parsed ≠ .error .bad_any_cast) :=
  ⟨by decide, by decide, C12_stored_type_is_declared_type no_double typed_opts (stack_of 0)
    "a.out".toList ["-v=1".toList, "-first=2".toList] (by decide) (by decide)⟩

/-! ## The converter table -/

theorem foldl_add_TsOptions (calls : List (OptsParse.value_t × T_string × T_string))
    (S : decl_opts) :
    (calls.foldl (fun S c => S.add c.1 c.2.1 c.2.2) S).TsOptions
      = S.TsOptions ++ calls.map (fun c => ⟨c.1, c.2.1, c.2.2⟩) := by
  induction calls generalizing S with
  | nil => simp
  | cons c cs ih =>
      rw [List.foldl_cons, ih]
      simp [decl_opts.add]

/-- C13 (code at the failing input). For the schema built from `decl_opts{}` by any chain of
`add` calls, the options are those of the calls in call order, `parse_arr` has one entry per
option, and the entry at the position of an option yields a value of the declared type. But the
entry of a `bool` option does not convert by the rule for `bool`: after
`add<bool>("-v", "-verbose")` the entry turns `-v=0` into `false` by stream extraction, where
the overload `parse_opt_impl(opt, select_type<bool>)` gives `true`. -/
theorem C13_bool_entry_is_stream_extracted {D : Type} (num_get_double : List Char → D × Bool)
    (calls : List (OptsParse.value_t × T_string × T_string)) :
    (chained_add calls).TsOptions = calls.map (fun c => ⟨c.1, c.2.1, c.2.2⟩) ∧
    ((chained_add calls).make_parse_arr num_get_double).length = calls.length ∧
    (∀ (i : Nat) (o : option), (chained_add calls).TsOptions[i]? = some o →
      ∃ parse : parse_fn_t D,
        ((chained_add calls).make_parse_arr num_get_double)[i]? = some parse ∧
        ∀ (u : Indeterminate D) (raw_opt : string_view),
          (parse u raw_opt).1.type = o.value_t) ∧
    (∃ parse : parse_fn_t D,
      ((chained_add [(.bool, "-v".toList, "-verbose".toList)]).make_parse_arr
        num_get_double)[0]? = some parse ∧
      ∀ u : Indeterminate D, parse u "-v=0".toList = (any.bool false, [])) ∧
    parse_opt_impl_bool "-v=0".toList = true := by
  have hT : (chained_add calls).TsOptions = calls.map (fun c => ⟨c.1, c.2.1, c.2.2⟩) := by
    rw [chained_add, foldl_add_TsOptions]
    rfl
  refine ⟨hT, by simp [decl_opts.make_parse_arr, hT], fun i o hi => ?_, ?_, rfl⟩
  · exact ⟨parse_opt num_get_double o.value_t, by simp [decl_opts.make_parse_arr, hi],
      fun u raw_opt => parse_opt_type num_get_double _ u raw_opt⟩
  · exact ⟨parse_opt num_get_double .bool, rfl, fun _ => rfl⟩

/-! ## Resolution of raw options -/

theorem print_bad_opt_ne_print_bad_value (t : string_view) :
    print_bad_opt t ≠ print_bad_value t := by
  intro he
  have := congrArg (fun l => (l.map List.length)) he
  simp [print_bad_opt, print_bad_value] at this

/-- C15. Converter-table indexing is in range exactly for known raw options: the index
`parse(raw_opt)` uses lies inside `parse_arr` exactly when the name part of the raw option is the
brief or full name of a declared option; otherwise the index is the size of the table, the read
is out of bounds and nothing has been printed. When `parse(raw_opt)` does return, what it printed
is nothing or the invalid-value line, never the not-recognized line. -/
theorem C15_parse_arr_index_in_range {D : Type} (num_get_double : List Char → D × Bool)
    (S : decl_opts) (u : Indeterminate D) (t : string_view) (hlen : t.length < npos) :
    (S.index t < (S.make_parse_arr num_get_double).length ↔
      ∃ o ∈ S.TsOptions, name_part t = o.brief_name_t ∨ name_part t = o.full_name_t) ∧
    ((¬ ∃ o ∈ S.TsOptions, name_part t = o.brief_name_t ∨ name_part t = o.full_name_t) →
      S.index t = (S.make_parse_arr num_get_double).length ∧
      S.parse_raw_opt num_get_double u t = none) ∧
    (∀ r, S.parse_raw_opt num_get_double u t = some r →
      (r.2 = [] ∨ r.2 = print_bad_value t) ∧ r.2 ≠ print_bad_opt t) := by
  have hl : (S.make_parse_arr num_get_double).length = S.size := by
    simp [decl_opts.make_parse_arr, decl_opts.size]
  have hidx : S.index t = S.index_impl (name_part t) := by
    rw [decl_opts.index, substr_find_eq_name_part t hlen]
  rw [hl, hidx]
  refine ⟨?_, ?_, ?_⟩
  · rcases index_impl_spec S (name_part t) with ⟨h1, h2⟩ | ⟨h1, ⟨o, ho, hn⟩, _⟩
    · constructor
      · intro h; omega
      · rintro ⟨o, ho, hn⟩
        exact absurd hn (h2 o ho)
    · exact ⟨fun _ => ⟨o, List.getElem?_mem ho, hn⟩, fun _ => h1⟩
  · intro hno
    rcases index_impl_spec S (name_part t) with ⟨h1, _⟩ | ⟨_, ⟨o, ho, hn⟩, _⟩
    · refine ⟨h1, ?_⟩
      have hge : (S.make_parse_arr num_get_double).length ≤ S.index t := by
        rw [hl, hidx, h1]
      simp [decl_opts.parse_raw_opt, List.getElem?_eq_none hge]
    · exact absurd ⟨o, List.getElem?_mem ho, hn⟩ hno
  · intro r hr
    obtain ⟨o, _, hro⟩ := parse_raw_opt_eq_some num_get_double S u t r hr
    have hout : r.2 = [] ∨ r.2 = print_bad_value t := by
      rw [hro]
      cases o.value_t <;>
      · simp only [parse_opt, parse_opt_impl]
        split <;> simp
    refine ⟨hout, ?_⟩
    rcases hout with h | h
    · rw [h]; simp [print_bad_opt]
    · rw [h]
      exact fun he => print_bad_opt_ne_print_bad_value t he.symm

theorem C15_parse_arr_index_in_range_witness :
    "-z=1".toList.length < npos ∧
    (main_opts.index "-z=1".toList < (main_opts.make_parse_arr no_double).length ↔
      ∃ o ∈ main_opts.TsOptions,
        name_part "-z=1".toList = o.brief_name_t ∨ name_part "-z=1".toList = o.full_name_t) ∧
    ((¬ ∃ o ∈ main_opts.TsOptions,
        name_part "-z=1".toList = o.brief_name_t ∨ name_part "-z=1".toList = o.full_name_t) →
      main_opts.index "-z=1".toList = (main_opts.make_parse_arr no_double).length ∧
      main_opts.parse_raw_opt no_double ⟨0, (), false⟩ "-z=1".toList = none) ∧
    (∀ r, main_opts.parse_raw_opt no_double ⟨0, (), false⟩ "-z=1".toList = some r →
      (r.2 = [] ∨ r.2 = print_bad_value "-z=1".toList) ∧ r.2 ≠ print_bad_opt "-z=1".toList) :=
  ⟨by decide, C15_parse_arr_index_in_range no_double main_opts ⟨0, (), false⟩ "-z=1".toList (by decide)⟩

/-- C17. Resolution ignores the value part: for a name `n` without `=` (and of a length that
fits `size_t`) and any text `v`, `index` of `n=v` is `index` of `n`. -/
theorem C17_index_ignores_value (S : decl_opts) (n v : List Char)
    (hn : '=' ∉ n) (hlen : n.length < npos) :
    S.index (n ++ '=' :: v) = S.index n := by
  rw [index_append S n v hn, index_of_not_mem S n hn hlen]

theorem C17_index_ignores_value_witness :
    '=' ∉ "-first".toList ∧ "-first".toList.length < npos ∧
    main_opts.index ("-first".toList ++ '=' :: "2=3".toList) = main_opts.index "-first".toList :=
  ⟨by decide, by decide,
    C17_index_ignores_value main_opts "-first".toList "2=3".toList (by decide) (by decide)⟩

theorem index_impl_add (S : decl_opts) (T : OptsParse.value_t) (b f s : string_view) :
    (S.add T b f).index_impl s
      = if s = b ∨ s = f then S.size
        else if S.index_impl s < S.size then S.index_impl s else S.size + 1 := by
  have hsz : (S.add T b f).size = S.size + 1 := by
    simp [decl_opts.add, decl_opts.size]
  rw [decl_opts.index_impl, hsz]
  show index_fold s (S.TsOptions ++ [⟨T, b, f⟩]) 0 (S.size + 1) = _
  rw [index_fold_snoc]
  simp only [option.named, Nat.zero_add]
  by_cases h : s = b ∨ s = f
  · rw [if_pos h, if_pos h]; rfl
  · rw [if_neg h, if_neg h]
    rcases index_fold_spec s S.TsOptions (S.size + 1) with ⟨h1, h2⟩ | ⟨h1, ⟨o, ho, hn⟩, h3⟩
    · rcases index_impl_spec S s with ⟨g1, _⟩ | ⟨_, ⟨o, ho, hn⟩, _⟩
      · rw [h1, g1, if_neg (Nat.lt_irrefl _)]
      · exact absurd hn (h2 o (List.getElem?_mem ho))
    · rcases index_impl_spec S s with ⟨_, g2⟩ | ⟨g1, ⟨p, hp, hpn⟩, g3⟩
      · exact absurd hn (g2 o (List.getElem?_mem ho))
      · rw [if_pos g1]
        rcases Nat.lt_trichotomy (index_fold s S.TsOptions 0 (S.size + 1)) (S.index_impl s)
          with hlt | heq | hgt
        · exact absurd hpn (h3 _ p hlt hp)
        · exact heq
        · exact absurd hn (g3 _ o hgt ho)

/-- C19. Adding an option does not disturb the resolution of other names: in `S.add<T>(b, f)` a
name part different from `b` and `f` resolves where it resolved in `S` when it was found there,
and to the new size `n + 1` when it was not; the name parts `b` and `f` resolve to `n`, the
position of the new option. Stated for `index_impl` on any name part, and for `index` on any raw
option (of a length that fits `size_t`) through its name part. -/
theorem C19_add_preserves_resolution (S : decl_opts) (T : OptsParse.value_t)
    (b f : T_string) (t : string_view) (hlen : t.length < npos) :
    (S.add T b f).size = S.size + 1 ∧
    (∀ s : string_view, s ≠ b → s ≠ f →
      (S.index_impl s < S.size → (S.add T b f).index_impl s = S.index_impl s) ∧
      (S.index_impl s = S.size → (S.add T b f).index_impl s = S.size + 1)) ∧
    (S.add T b f).index_impl b = S.size ∧ (S.add T b f).index_impl f = S.size ∧
    (name_part t ≠ b → name_part t ≠ f →
      (S.index t < S.size → (S.add T b f).index t = S.index t) ∧
      (S.index t = S.size → (S.add T b f).index t = S.size + 1)) ∧
    ((name_part t = b ∨ name_part t = f) → (S.add T b f).index t = S.size) := by
  have hidx : ∀ S' : decl_opts, S'.index t = S'.index_impl (name_part t) := by
    intro S'
    rw [decl_opts.index, substr_find_eq_name_part t hlen]
  have key : ∀ s : string_view, s ≠ b → s ≠ f →
      (S.index_impl s < S.size → (S.add T b f).index_impl s = S.index_impl s) ∧
      (S.index_impl s = S.size → (S.add T b f).index_impl s = S.size + 1) := by
    intro s hb hf
    have hne : ¬ (s = b ∨ s = f) := fun h => h.elim hb hf
    rw [index_impl_add, if_neg hne]
    constructor
    · intro h; rw [if_pos h]
    · intro h; rw [if_neg (by omega)]
  refine ⟨by simp [decl_opts.add, decl_opts.size], key, ?_, ?_, ?_, ?_⟩
  · rw [index_impl_add, if_pos (Or.inl rfl)]
  · rw [index_impl_add, if_pos (Or.inr rfl)]
  · intro hb hf
    rw [hidx, hidx]
    exact key _ hb hf
  · intro h
    rw [hidx, index_impl_add, if_pos h]

theorem C19_add_preserves_resolution_witness :
    "-f=1".toList.length < npos ∧
    (main_opts.add .bool "-v".toList "-verbose".toList).size = main_opts.size + 1 ∧
    (∀ s : string_view, s ≠ "-v".toList → s ≠ "-verbose".toList →
      (main_opts.index_impl s < main_opts.size →
        (main_opts.add .bool "-v".toList "-verbose".toList).index_impl s
          = main_opts.index_impl s) ∧
      (main_opts.index_impl s = main_opts.size →
        (main_opts.add .bool "-v".toList "-verbose".toList).index_impl s
          = main_opts.size + 1)) ∧
    (main_opts.add .bool "-v".toList "-verbose".toList).index_impl "-v".toList
      = main_opts.size ∧
    (main_opts.add .bool "-v".toList "-verbose".toList).index_impl "-verbose".toList
      = main_opts.size ∧
    (name_part "-f=1".toList ≠ "-v".toList → name_part "-f=1".toList ≠ "-verbose".toList →
      (main_opts.index "-f=1".toList < main_opts.size →
        (main_opts.add .bool "-v".toList "-verbose".toList).index "-f=1".toList
          = main_opts.index "-f=1".toList) ∧
      (main_opts.index "-f=1".toList = main_opts.size →
        (main_opts.add .bool "-v".toList "-verbose".toList).index "-f=1".toList
          = main_opts.size + 1)) ∧
    ((name_part "-f=1".toList = "-v".toList ∨ name_part "-f=1".toList = "-verbose".toList) →
      (main_opts.add .bool "-v".toList "-verbose".toList).index "-f=1".toList
        = main_opts.size) :=
  ⟨by decide, C19_add_preserves_resolution main_opts .bool "-v".toList "-verbose".toList
    "-f=1".toList (by decide)⟩

/-! ## Last write wins, key by key -/

theorem find_filter_ne {D : Type} (res : opts_map_t D) (key k : string_view) (h : k ≠ key) :
    (res.filter (fun e => e.1 != key)).find? (fun e => e.1 == k)
      = res.find? (fun e => e.1 == k) := by
  induction res with
  | nil => rfl
  | cons e es ih =>
      rw [List.filter_cons]
      by_cases hk : e.1 = k
      · have hkeep : (e.1 != key) = true := by
          simp only [bne_iff_ne, ne_eq, hk]; exact h
        have hp : (e.1 == k) = true := by simp [hk]
        rw [if_pos hkeep, List.find?_cons, List.find?_cons]
        simp only [hp]
      · have hp : (e.1 == k) = false := by simp [hk]
        by_cases hek : e.1 = key
        · have hdrop : ¬ (e.1 != key) = true := by simp [hek]
          rw [if_neg hdrop, ih, List.find?_cons]
          simp only [hp]
        · have hkeep : (e.1 != key) = true := by simp [hek]
          rw [if_pos hkeep, List.find?_cons, List.find?_cons]
          simp only [hp]
          exact ih

theorem at_assign {D : Type} (res : opts_map_t D) (key k : string_view) (a : any D) :
    (res.assign key a).at k = if k = key then some a else res.at k := by
  by_cases h : k = key
  · subst h
    simp [opts_map_t.assign, opts_map_t.at]
  · rw [if_neg h]
    have hp : (key == k) = false := by
      simp only [beq_eq_false_iff_ne, ne_eq]; exact fun e => h e.symm
    rw [opts_map_t.at, opts_map_t.assign, List.find?_cons]
    simp only [hp]
    rw [find_filter_ne res key k h]
    rfl

theorem nodup_keys_assign {D : Type} (res : opts_map_t D) (key : string_view) (a : any D)
    (h : res.keys.Nodup) : (res.assign key a).keys.Nodup := by
  simp only [opts_map_t.assign, opts_map_t.keys, List.map_cons, List.nodup_cons]
  constructor
  · intro hmem
    obtain ⟨e, he, hk⟩ := List.mem_map.mp hmem
    have := (List.mem_filter.mp he).2
    simp only [bne_iff_ne, ne_eq] at this
    exact this hk
  · exact List.Nodup.sublist (List.Sublist.map _ (List.filter_sublist _)) h

theorem parse_loop_append {D : Type} (num_get_double : List Char → D × Bool) (S : decl_opts)
    (stack : Nat → Indeterminate D) (xs ys : List string_view) (i : Nat) (res : opts_map_t D)
    (out : ostream) :
    parse_loop num_get_double S stack (xs ++ ys) i res out
      = (parse_loop num_get_double S stack xs i res out).bind
          (fun r => parse_loop num_get_double S stack ys (i + xs.length) r.1 r.2) := by
  induction xs generalizing i res out with
  | nil => simp [parse_loop]
  | cons t ts ih =>
      rw [List.cons_append, parse_loop, parse_loop]
      by_cases hf : find t '=' = npos
      · simp [hf]
      · rw [if_neg hf, if_neg hf]
        cases hp : S.parse_raw_opt num_get_double (stack i) t with
        | none => simp
        | some ap =>
            simp only [ih, List.length_cons]
            have e : i + 1 + ts.length = i + (ts.length + 1) := by omega
            rw [e]

/-- Inputs whose name part is not `k` leave the entry for `k` as it was. -/
theorem parse_loop_frame {D : Type} (num_get_double : List Char → D × Bool) (S : decl_opts)
    (stack : Nat → Indeterminate D) (k : string_view) (input : List string_view)
    (hne : ∀ t ∈ input, name_part t ≠ k) (i : Nat) (res : opts_map_t D) (out : ostream)
    (r : opts_map_t D × ostream)
    (hr : parse_loop num_get_double S stack input i res out = some r) :
    r.1.at k = res.at k := by
  induction input generalizing i res out with
  | nil =>
      simp only [parse_loop, Option.some.injEq] at hr
      rw [← hr]
  | cons t ts ih =>
      rw [parse_loop] at hr
      by_cases hf : find t '=' = npos
      · simp [hf] at hr
      · rw [if_neg hf] at hr
        cases hp : S.parse_raw_opt num_get_double (stack i) t with
        | none => simp [hp] at hr
        | some ap =>
            simp only [hp] at hr
            rw [ih (fun t' ht' => hne t' (List.mem_cons_of_mem _ ht')) _ _ _ hr, at_assign,
              take_find_eq_name_part t (mem_of_find_ne_npos t hf)]
            rw [if_neg (fun e => hne t (List.mem_cons_self _ _) e.symm)]

theorem parse_loop_nodup {D : Type} (num_get_double : List Char → D × Bool) (S : decl_opts)
    (stack : Nat → Indeterminate D) (input : List string_view) (i : Nat) (res : opts_map_t D)
    (out : ostream) (hres : res.keys.Nodup) (r : opts_map_t D × ostream)
    (hr : parse_loop num_get_double S stack input i res out = some r) :
    r.1.keys.Nodup := by
  induction input generalizing i res out with
  | nil =>
      simp only [parse_loop, Option.some.injEq] at hr
      rw [← hr]; exact hres
  | cons t ts ih =>
      rw [parse_loop] at hr
      by_cases hf : find t '=' = npos
      · simp [hf] at hr
      · rw [if_neg hf] at hr
        cases hp : S.parse_raw_opt num_get_double (stack i) t with
        | none => simp [hp] at hr
        | some ap =>
            simp only [hp] at hr
            exact ih _ _ _ (nodup_keys_assign _ _ _ hres) hr

/-- C18. Per-key last write wins: when every input contains `=`, fits `size_t` and resolves, and
`t` is the last input with its name part, `parse` returns a result whose entry for that name
part is the value `parse(raw_opt)` converts `t` to (at the iteration of `t`); the map holds one
entry per key, so earlier inputs with the same name part leave no trace; and for any key, inputs
after `t` with a different name part leave its entry as the parse up to `t` had it. -/
theorem C18_last_write_wins {D : Type} (num_get_double : List Char → D × Bool) (S : decl_opts)
    (stack : Nat → Indeterminate D) (prog : string_view) (pre post : List string_view)
    (t : string_view)
    (h : ∀ t' ∈ pre ++ t :: post, '=' ∈ t' ∧ t'.length < npos ∧ S.index t' < S.size)
    (hlast : ∀ t' ∈ post, name_part t' ≠ name_part t) :
    ∃ parsed printed a out,
      S.parse num_get_double stack (prog :: (pre ++ t :: post)) = some (parsed, printed) ∧
      S.parse_raw_opt num_get_double (stack pre.length) t = some (a, out) ∧
      parsed.res.at (name_part t) = some a ∧
      parsed.res.keys.Nodup ∧
      ∀ k, (∀ t' ∈ post, name_part t' ≠ k) →
        ∃ parsed0 printed0,
          S.parse num_get_double stack (prog :: (pre ++ [t])) = some (parsed0, printed0) ∧
          parsed.res.at k = parsed0.res.at k := by
  have hpre : ∀ t' ∈ pre, '=' ∈ t' ∧ t'.length < npos ∧ S.index t' < S.size :=
    fun t' ht' => h t' (List.mem_append_left _ ht')
  have ht := h t (List.mem_append_right _ (List.mem_cons_self _ _))
  have hpost : ∀ t' ∈ post, '=' ∈ t' ∧ t'.length < npos ∧ S.index t' < S.size :=
    fun t' ht' => h t' (List.mem_append_right _ (List.mem_cons_of_mem _ ht'))
  obtain ⟨r1, hr1, _⟩ := parse_loop_keys num_get_double S stack pre hpre 0 [] []
  obtain ⟨⟨a, out⟩, ha⟩ := parse_raw_opt_isSome num_get_double S (stack pre.length) t ht.2.2
  obtain ⟨r2, hr2, _⟩ := parse_loop_keys num_get_double S stack post hpost (pre.length + 1)
    (r1.1.assign (name_part t) a) (r1.2 ++ out)
  have hstep : ∀ rest : List string_view,
      parse_loop num_get_double S stack (t :: rest) pre.length r1.1 r1.2
        = parse_loop num_get_double S stack rest (pre.length + 1)
            (r1.1.assign (name_part t) a) (r1.2 ++ out) := by
    intro rest
    rw [parse_loop, if_neg (find_ne_npos t ht.1 ht.2.1)]
    simp only [ha, take_find_eq_name_part t ht.1]
  have hall : parse_loop num_get_double S stack (pre ++ t :: post) 0 [] [] = some r2 := by
    rw [parse_loop_append, hr1]
    simp only [Option.some_bind, Nat.zero_add]
    rw [hstep, hr2]
  have hone : parse_loop num_get_double S stack (pre ++ [t]) 0 [] []
      = some (r1.1.assign (name_part t) a, r1.2 ++ out) := by
    rw [parse_loop_append, hr1]
    simp only [Option.some_bind, Nat.zero_add]
    rw [hstep, parse_loop]
  refine ⟨⟨r2.1⟩, r2.2, a, out, by simp [decl_opts.parse, hall], ha, ?_, ?_, ?_⟩
  · show r2.1.at (name_part t) = some a
    rw [parse_loop_frame num_get_double S stack (name_part t) post hlast _ _ _ r2 hr2,
      at_assign, if_pos rfl]
  · exact parse_loop_nodup num_get_double S stack _ 0 [] [] (by simp [opts_map_t.keys]) r2 hall
  · intro k hk
    refine ⟨⟨r1.1.assign (name_part t) a⟩, r1.2 ++ out, by simp [decl_opts.parse, hone], ?_⟩
    exact parse_loop_frame num_get_double S stack k post hk _ _ _ r2 hr2

theorem C18_last_write_wins_witness :
    (∀ t' ∈ ["-f=1".toList] ++ "-f=2".toList :: ["-first=3".toList],
      '=' ∈ t' ∧ t'.length < npos ∧ main_opts.index t' < main_opts.size) ∧
    (∀ t' ∈ ["-first=3".toList], name_part t' ≠ name_part "-f=2".toList) ∧
    ∃ parsed printed a out,
      main_opts.parse no_double (stack_of 0)
        ("a.out".toList :: (["-f=1".toList] ++ "-f=2".toList :: ["-first=3".toList]))
        = some (parsed, printed) ∧
      main_opts.parse_raw_opt no_double (stack_of 0 ["-f=1".toList].length) "-f=2".toList
        = some (a, out) ∧
      parsed.res.at (name_part "-f=2".toList) = some a ∧
      parsed.res.keys.Nodup ∧
      ∀ k, (∀ t' ∈ ["-first=3".toList], name_part t' ≠ k) →
        ∃ parsed0 printed0,
          main_opts.parse no_double (stack_of 0)
            ("a.out".toList :: (["-f=1".toList] ++ ["-f=2".toList]))
            = some (parsed0, printed0) ∧
          parsed.res.at k = parsed0.res.at k :=
  ⟨by decide, by decide, C18_last_write_wins no_double main_opts (stack_of 0) "a.out".toList
    ["-f=1".toList] ["-first=3".toList] "-f=2".toList (by decide) (by decide)⟩

/-- C14 (code at the failing input). On `main`'s schema the input `-first=` has a blank value:
the extraction is not attempted and `parse` stores what the uninitialised local of the call
holds. Two calls that find different contents there return different results. -/
theorem C14_blank_value_is_indeterminate {D : Type} (num_get_double : List Char → D × Bool) :
    (∀ stack : Nat → Indeterminate D,
      main_opts.parse num_get_double stack ["a.out".toList, "-first=".toList]
        = some (⟨[("-first".toList, any.int (stack 0).int_value)]⟩,
            print_bad_value "-first=".toList)) ∧
    (main_opts.parse no_double (stack_of 0) ["a.out".toList, "-first=".toList]).map
        (fun r => r.1.res)
      ≠ (main_opts.parse no_double (stack_of 1) ["a.out".toList, "-first=".toList]).map
        (fun r => r.1.res) :=
  ⟨fun _ => rfl, by decide⟩

end OptsParse
